import Mathlib

/-!
Verification of the alignment-engine core of the Onto-PLM repository.

The Python sources embedded here (shallowly) are:
* `src/deeponto/utils/general_utils.py` — `uniqify`;
* `src/deeponto/models/align/onto_align.py` — the `OntoAlign` class:
  label-product batching (`lab_products_for_ent`, `batched_lab_products_for_ent`),
  direction control (`switch`, `renew`, `pair_score`, `global_match`),
  and chunked mapping computation with checkpointing and parallel folding
  (`global_mappings_for_ent_chunk`, `global_mappings_for_onto`,
  `global_mappings_for_onto_multi_procs`).

Collaborator code that is not part of the repository snapshot
(`text_utils.lab_product`, `OntoMappings.add` / `.ranked`) is modelled from the
specification; each such definition carries a doc comment starting with
`Modelled from the spec:`.
-/

/-! ## `uniqify` (general_utils.py, lines 25-29) -/

/-- Embedding of Python `dict.fromkeys` insertion-order semantics: keep each
element the first time it is seen (the `seen` accumulator holds the keys already
inserted into the dictionary). -/
def dict_fromkeys : List String → List String → List String
  | _, [] => []
  | seen, x :: xs =>
    if x ∈ seen then dict_fromkeys seen xs else x :: dict_fromkeys (x :: seen) xs

/-- Embedding of `uniqify(ls)`: filter out empty strings, then deduplicate
keeping first occurrences (`list(dict.fromkeys(non_empty_ls))`). -/
def uniqify (ls : List String) : List String :=
  dict_fromkeys [] (ls.filter (fun x => x ≠ ""))

/-- Specification-side description of "keep only the first occurrence of each
element, in original order": keep the head and drop all its later duplicates. -/
def firstOcc : List String → List String
  | [] => []
  | x :: xs => x :: firstOcc (xs.filter (fun y => y ≠ x))
termination_by l => l.length
decreasing_by
  simp only [List.length_cons]
  exact Nat.lt_succ_of_le (List.length_filter_le _ _)

/-! ## Label-product batching (onto_align.py, lines 249-292) -/

/-- One batch, as built by `batched_lab_products_for_ent`:
`AttrDict({"labs": [], "lens": []})` — the label pairs of the batch together
with the parallel list of per-candidate group lengths. -/
structure Batch where
  labs : List (String × String)
  lens : List Nat
deriving DecidableEq, Repr

/-- Modelled from the spec: `text_utils.lab_product` is not part of the
repository snapshot; per the spec it yields the full ordered Cartesian product
of the two label lists (source-major), returned as two parallel lists of equal
length `|src_labs| * |tgt_labs|`. -/
def lab_product (src_labs tgt_labs : List String) : List String × List String :=
  (src_labs.flatMap (fun s => tgt_labs.map (fun _ => s)),
   src_labs.flatMap (fun _ => tgt_labs))

/-- The full ordered Cartesian product of two label lists as a list of pairs:
for each source label in order, all target labels in order. -/
def prodPairs (src_labs tgt_labs : List String) : List (String × String) :=
  src_labs.flatMap (fun s => tgt_labs.map (fun t => (s, t)))

/-- Embedding of `OntoAlign.lab_products_for_ent` (lines 249-266): iterate over
the candidate list, accumulating `src_sents`, `tgt_sents` and `product_lens`,
then return `(list(zip(src_sents, tgt_sents)), product_lens)`.
`src_idx2labs` and `tgt_idx2labs` stand for `self.src_onto.idx2labs` and
`self.tgt_onto.idx2labs`; candidates are `(ent_id, idf_score)` pairs. -/
def lab_products_for_ent (src_idx2labs tgt_idx2labs : Nat → List String)
    (src_ent_id : Nat) (tgt_cands : List (Nat × ℚ)) :
    List (String × String) × List Nat :=
  let src_ent_labs := src_idx2labs src_ent_id
  let acc := tgt_cands.foldl
    (fun (acc : List String × List String × List Nat) (cand : Nat × ℚ) =>
      let tgt_ent_labs := tgt_idx2labs cand.1
      let out := lab_product src_ent_labs tgt_ent_labs
      (acc.1 ++ out.1, acc.2.1 ++ out.2, acc.2.2 ++ [out.1.length]))
    ([], [], [])
  (acc.1.zip acc.2.1, acc.2.2)

/-- Loop of `batched_lab_products_for_ent` (lines 275-288): `lab_products` is
sliced at the moving pointer `cur_lab_pointer`; the current batch is emitted
when the accumulated length sum strictly exceeds `batch_size`
(`sum(cur_batch.lens) > batch_size`) or the group just appended was the last
one (`i == len(product_lens) - 1`). -/
def batchedGo (lab_products : List (String × String)) (batch_size : Nat) :
    List Nat → Nat → Batch → List Batch
  | [], _, _ => []
  | [l], ptr, cur =>
    [⟨cur.labs ++ (lab_products.drop ptr).take l, cur.lens ++ [l]⟩]
  | l :: l2 :: rest, ptr, cur =>
    let cur' : Batch := ⟨cur.labs ++ (lab_products.drop ptr).take l, cur.lens ++ [l]⟩
    if batch_size < cur'.lens.sum then
      cur' :: batchedGo lab_products batch_size (l2 :: rest) (ptr + l) ⟨[], []⟩
    else
      batchedGo lab_products batch_size (l2 :: rest) (ptr + l) cur'

/-- Embedding of `OntoAlign.batched_lab_products_for_ent` (lines 268-292). -/
def batched_lab_products_for_ent (src_idx2labs tgt_idx2labs : Nat → List String)
    (src_ent_id : Nat) (tgt_cands : List (Nat × ℚ)) (batch_size : Nat) : List Batch :=
  let lp := lab_products_for_ent src_idx2labs tgt_idx2labs src_ent_id tgt_cands
  batchedGo lp.1 batch_size lp.2 0 ⟨[], []⟩

/-- The per-candidate label-pair groups of a source entity: for each candidate
in selector order, the full ordered product of the source labels with that
candidate's labels. -/
def entGroups (src_idx2labs tgt_idx2labs : Nat → List String)
    (src_ent_id : Nat) (tgt_cands : List (Nat × ℚ)) : List (List (String × String)) :=
  tgt_cands.map (fun cand => prodPairs (src_idx2labs src_ent_id) (tgt_idx2labs cand.1))

/-- Specification-side batching at the granularity of whole candidate groups:
the same closing rule as `batchedGo`, but a batch is kept as a list of whole
groups (so "a group is never split" is structural). -/
def chunkGroupsGo (batch_size : Nat) :
    List (List (String × String)) → List (List (String × String)) →
    List (List (List (String × String)))
  | [], _ => []
  | [g], cur => [cur ++ [g]]
  | g :: g2 :: rest, cur =>
    let cur' := cur ++ [g]
    if batch_size < (cur'.map List.length).sum then
      cur' :: chunkGroupsGo batch_size (g2 :: rest) []
    else
      chunkGroupsGo batch_size (g2 :: rest) cur'

/-- Group-level batching of a list of label-pair groups. -/
def chunkGroups (batch_size : Nat) (groups : List (List (String × String))) :
    List (List (List (String × String))) :=
  chunkGroupsGo batch_size groups []

/-- Flatten a group-level batch into the `Batch` record the code produces. -/
def renderChunk (c : List (List (String × String))) : Batch :=
  ⟨c.flatten, c.map List.length⟩

/-! ## Direction control (onto_align.py, lines 64-65, 71-94, 105-134) -/

/-- The two values produced by `self.flag_set = cycle(["src2tgt", "tgt2src"])`. -/
inductive AlignFlag where
  | src2tgt : AlignFlag
  | tgt2src : AlignFlag
deriving DecidableEq, Repr

/-- `next(self.flag_set)`: the two-element cycle alternates between the flags. -/
def AlignFlag.next : AlignFlag → AlignFlag
  | .src2tgt => .tgt2src
  | .tgt2src => .src2tgt

/-- The direction-relevant state of an `OntoAlign` engine: the two ontology
references (`self.src_onto`, `self.tgt_onto`, of opaque type `α`), the current
direction flag, and `self.n_best`. -/
structure OntoAlignSt (α : Type) where
  src_onto : α
  tgt_onto : α
  flag : AlignFlag
  n_best : Nat
deriving DecidableEq, Repr

/-- Embedding of `OntoAlign.switch` (lines 130-134): swap the two ontology
references and advance the flag cycle; nothing else changes. -/
def switch {α : Type} (s : OntoAlignSt α) : OntoAlignSt α :=
  { s with src_onto := s.tgt_onto, tgt_onto := s.src_onto, flag := s.flag.next }

/-- Embedding of the `while not self.flag == flag: self.switch()` loops of
`pair_score` and `renew`: on the two-element flag cycle at most one switch is
needed, so the loop is the conditional below (`switchUntil_loop` shows it
satisfies the loop's unfolding equation). -/
def switchUntil {α : Type} (s : OntoAlignSt α) (f : AlignFlag) : OntoAlignSt α :=
  if s.flag = f then s else switch s

/-- Embedding of `OntoAlign.renew` (lines 124-128): switch until the flag is
back to the canonical `"src2tgt"`. -/
def renew {α : Type} (s : OntoAlignSt α) : OntoAlignSt α :=
  switchUntil s .src2tgt

/-- The class count `max_num_mappings = len(getattr(self, f"{prefix}_onto").idx2class)`
computed by `pair_score` (lines 80-82) on the post-switch state: `prefix` is
the substring of the flag after `"2"` (`"tgt"` for `"src2tgt"`, `"src"` for
`"tgt2src"`), and the attribute named `f"{prefix}_onto"` is read on the
current state. Catalogs are concretised as their `idx2class` lists. -/
def pair_score_max_num (s : OntoAlignSt (List String)) (f : AlignFlag) : Nat :=
  match f with
  | .src2tgt => s.tgt_onto.length
  | .tgt2src => s.src_onto.length

/-- Direction and `n_best` effect of `OntoAlign.pair_score` (lines 71-94):
switch until the requested flag is active, then assign
`self.n_best = max_num_mappings` (the restore of the old value is commented
out in the source). -/
def pair_score_st (s : OntoAlignSt (List String)) (f : AlignFlag) :
    OntoAlignSt (List String) :=
  let s1 := switchUntil s f
  { s1 with n_best := pair_score_max_num s1 f }

/-- Events observable during `global_match`: running one direction's full
mapping computation, or switching direction. -/
inductive AlignEv where
  | run (f : AlignFlag) : AlignEv
  | sw : AlignEv
deriving DecidableEq, Repr

/-- `switchUntil` together with the switch events it emits. -/
def switchUntilT {α : Type} (s : OntoAlignSt α) (f : AlignFlag) :
    OntoAlignSt α × List AlignEv :=
  if s.flag = f then (s, []) else (switch s, [.sw])

/-- Embedding of `OntoAlign.global_match` (lines 105-122): renew to the
canonical direction, run it, switch, run the other direction, renew again.
The trace records the two full-direction runs and every switch. -/
def global_matchT {α : Type} (s : OntoAlignSt α) : OntoAlignSt α × List AlignEv :=
  let p1 := switchUntilT s .src2tgt
  let e2 := [AlignEv.run p1.1.flag]
  let s2 := switch p1.1
  let e4 := [AlignEv.run s2.flag]
  let p5 := switchUntilT s2 .src2tgt
  (p5.1, p1.2 ++ e2 ++ [AlignEv.sw] ++ e4 ++ p5.2)

/-- Coupling invariant between the flag and the roles of the two constructor
catalogs `A` and `B`: it holds at engine construction (flag `src2tgt`, roles
`(A, B)`) and is preserved by `switch`. -/
def RolesInv {α : Type} (A B : α) (s : OntoAlignSt α) : Prop :=
  (s.flag = .src2tgt ∧ s.src_onto = A ∧ s.tgt_onto = B) ∨
  (s.flag = .tgt2src ∧ s.src_onto = B ∧ s.tgt_onto = A)

/-! ## Mapping store and chunked computation (onto_align.py, lines 149-232) -/

/-- `EntityMapping(src_ent_name, tgt_ent_name, rel, score)`; scores are
modelled as rationals. -/
structure EntityMapping where
  src : String
  tgt : String
  rel : String
  score : ℚ
deriving DecidableEq, Repr

/-- The `ranked` store of an `OntoMappings` object: an insertion-ordered
mapping from source key to an inner ranked list of (target key, score)
entries. -/
abbrev MapStore := List (String × List (String × ℚ))

/-- Stable descending insertion: `x` is placed before the first entry with a
strictly smaller score, so among equal scores the earlier entry stays first. -/
def insertDesc (x : String × ℚ) : List (String × ℚ) → List (String × ℚ)
  | [] => [x]
  | y :: ys => if y.2 < x.2 then x :: y :: ys else y :: insertDesc x ys

/-- Stable sort by descending score (earlier insertion wins ties). -/
def sortDesc (l : List (String × ℚ)) : List (String × ℚ) :=
  l.foldl (fun acc x => insertDesc x acc) []

/-- Insert-or-overwrite of one (target key, score) entry into an inner ranked
list: overwrite in place when the target key is present, append otherwise. -/
def updateInner (inner : List (String × ℚ)) (tgt : String) (score : ℚ) :
    List (String × ℚ) :=
  if inner.any (fun p => p.1 == tgt) then
    inner.map (fun p => if p.1 == tgt then (p.1, score) else p)
  else
    inner ++ [(tgt, score)]

/-- Modelled from the spec: `OntoMappings.add` is not part of the repository
snapshot; per the spec it inserts or overwrites the (source key, target key)
entry, then re-ranks that source key's inner collection by descending score
(stable tie-break: earlier insertion wins) and truncates it to the top
`n_best`. -/
def storeAdd (nBest : Nat) (st : MapStore) (m : EntityMapping) : MapStore :=
  if st.any (fun e => e.1 == m.src) then
    st.map (fun e =>
      if e.1 == m.src then (e.1, (sortDesc (updateInner e.2 m.tgt m.score)).take nBest)
      else e)
  else
    st ++ [(m.src, (sortDesc (updateInner [] m.tgt m.score)).take nBest)]

/-- Modelled from the spec: `OntoMappings.add_many(*mappings)` is a sequence
of `add` calls. -/
def storeAddMany (nBest : Nat) (st : MapStore) (ms : List EntityMapping) : MapStore :=
  ms.foldl (storeAdd nBest) st

/-- The source keys holding a ranked entry: `mappings.ranked.keys()`. -/
def storeKeys (st : MapStore) : List String := st.map (fun e => e.1)

/-- The observable content of the store at one source key. -/
def storeLookup (st : MapStore) (k : String) : Option (List (String × ℚ)) :=
  (st.find? (fun e => e.1 == k)).map (fun e => e.2)

/-- Two stores with the same observable content at every source key. -/
def StoreContentEq (st st' : MapStore) : Prop :=
  ∀ k, storeLookup st k = storeLookup st' k

/-- Output of one chunk run: the mutated store, the `mappings_for_chunk`
result list, and the number of intermediate `save_instance` calls. -/
structure ChunkOut where
  store : MapStore
  results : List (List EntityMapping)
  saves : Nat
deriving DecidableEq, Repr

/-- Embedding of `OntoAlign.global_mappings_for_ent_chunk` (lines 202-224):
iterate over the chunk's entity ids; skip an id when its key already has a
ranked entry in the store; otherwise compute its mappings
(`global_mappings_for_ent`, abstracted as the injected per-entity `scorer`),
`add_many` them into the store, append them to the chunk result list, and —
when `intermediate_saving` is on and `src_ent_id % save_step == 0` — persist
the store (`save_instance`, counted in `saves`). `keyOf` stands for
`self.src_onto.idx2class`. -/
def global_mappings_for_ent_chunk (scorer : Nat → List EntityMapping)
    (keyOf : Nat → String) (nBest : Nat) (save_step : Nat)
    (intermediate_saving : Bool) : List Nat → MapStore → ChunkOut
  | [], st => ⟨st, [], 0⟩
  | id :: rest, st =>
    if keyOf id ∈ storeKeys st then
      global_mappings_for_ent_chunk scorer keyOf nBest save_step intermediate_saving rest st
    else
      let cur := scorer id
      let st' := storeAddMany nBest st cur
      let o := global_mappings_for_ent_chunk scorer keyOf nBest save_step
        intermediate_saving rest st'
      ⟨o.store, cur :: o.results,
        (if intermediate_saving && (id % save_step == 0) then 1 else 0) + o.saves⟩

/-- Specification-side measurement of the chunk loop: the ids that are
actually processed (not skipped), under the same evolving store. -/
def processedIds (scorer : Nat → List EntityMapping) (keyOf : Nat → String)
    (nBest : Nat) : List Nat → MapStore → List Nat
  | [], _ => []
  | id :: rest, st =>
    if keyOf id ∈ storeKeys st then processedIds scorer keyOf nBest rest st
    else id :: processedIds scorer keyOf nBest rest (storeAddMany nBest st (scorer id))

/-- Embedding of `OntoAlign.global_mappings_for_onto` (lines 189-200): run the
chunk procedure over all entity ids (intermediate saving on), then perform one
unconditional `save_instance`. Returns the final store and the total number of
persists. -/
def global_mappings_for_onto (scorer : Nat → List EntityMapping)
    (keyOf : Nat → String) (nBest : Nat) (save_step : Nat)
    (ids : List Nat) (st : MapStore) : MapStore × Nat :=
  let o := global_mappings_for_ent_chunk scorer keyOf nBest save_step true ids st
  (o.store, o.saves + 1)

/-- Embedding of the result-folding phase of
`OntoAlign.global_mappings_for_onto_multi_procs` (lines 182-187): after all
workers join, fold every worker's full chunk-result list into the shared store
with `add_many`. `results` carries one entry per worker, in the order the
`Manager` dict yields them (which depends on completion order). -/
def foldWorkerResults (nBest : Nat) (st : MapStore)
    (results : List (List (List EntityMapping))) : MapStore :=
  results.foldl (fun acc res => storeAddMany nBest acc res.flatten) st

/-- The per-key effect of a sequence of `add` calls, as seen through
`storeLookup`: each mapping for this key re-ranks and truncates the inner
list. -/
def applyInnerAdds (nBest : Nat) (o : Option (List (String × ℚ)))
    (ms : List EntityMapping) : Option (List (String × ℚ)) :=
  ms.foldl
    (fun o m => some ((sortDesc (updateInner (o.getD []) m.tgt m.score)).take nBest)) o

/-- The per-worker chunk results of the parallel run (lines 159-176): each
worker process runs the chunk procedure on its own copy of the engine — hence
against the initial store — with intermediate saving off, and returns its
`mappings_for_chunk` list. -/
def workerResults (scorer : Nat → List EntityMapping) (keyOf : Nat → String)
    (nBest : Nat) (save_step : Nat) (chunks : List (List Nat)) (st : MapStore) :
    List (List (List EntityMapping)) :=
  chunks.map (fun c =>
    (global_mappings_for_ent_chunk scorer keyOf nBest save_step false c st).results)

/-- Concrete key table used by witness theorems. -/
def wKeyOf : Nat → String := fun id => if id = 0 then "a" else if id = 1 then "b" else "c"

/-- Concrete deterministic per-entity scorer used by witness theorems: one
mapping per entity, carrying the entity's own key. -/
def wScorer : Nat → List EntityMapping := fun id => [⟨wKeyOf id, "t", "≡", 1⟩]

theorem firstOcc_mem (l : List String) (y : String) : y ∈ firstOcc l ↔ y ∈ l := by
  induction l using firstOcc.induct with
  | case1 => simp [firstOcc]
  | case2 x xs ih =>
    simp only [firstOcc, List.mem_cons, ih, List.mem_filter]
    constructor
    · rintro (rfl | ⟨h1, _⟩)
      · exact Or.inl rfl
      · exact Or.inr h1
    · rintro (rfl | h)
      · exact Or.inl rfl
      · by_cases hyx : y = x
        · exact Or.inl hyx
        · exact Or.inr ⟨h, by simp [hyx]⟩

theorem firstOcc_nodup (l : List String) : (firstOcc l).Nodup := by
  induction l using firstOcc.induct with
  | case1 => simp [firstOcc]
  | case2 x xs ih =>
    simp only [firstOcc, List.nodup_cons]
    refine ⟨fun hmem => ?_, ih⟩
    rw [firstOcc_mem, List.mem_filter] at hmem
    simp at hmem

theorem firstOcc_sublist (l : List String) : (firstOcc l).Sublist l := by
  induction l using firstOcc.induct with
  | case1 => simp [firstOcc]
  | case2 x xs ih =>
    simp only [firstOcc]
    exact List.Sublist.cons₂ x (ih.trans (List.filter_sublist xs))

theorem dict_fromkeys_eq_firstOcc (xs : List String) (seen : List String) :
    dict_fromkeys seen xs = firstOcc (xs.filter (fun y => y ∉ seen)) := by
  induction xs generalizing seen with
  | nil => simp [dict_fromkeys, firstOcc]
  | cons x xs ih =>
    by_cases hx : x ∈ seen
    · rw [List.filter_cons]
      have hd : (decide (x ∉ seen)) = false := by simp [hx]
      rw [hd]
      simp only [dict_fromkeys, if_pos hx, Bool.false_eq_true, if_false]
      exact ih seen
    · rw [List.filter_cons]
      have hd : (decide (x ∉ seen)) = true := by simp [hx]
      rw [hd]
      simp only [dict_fromkeys, if_neg hx, if_true, firstOcc, List.filter_filter]
      rw [ih]
      congr 2
      apply List.filter_congr
      intro y _
      by_cases h1 : y = x <;> by_cases h2 : y ∈ seen <;> simp [h1, h2]

/-! ### Batching lemmas -/

theorem zip_map_const (a : String) (t : List String) :
    (t.map (fun _ => a)).zip t = t.map (fun b => (a, b)) := by
  induction t with
  | nil => rfl
  | cons b t ih => simp only [List.map_cons, List.zip_cons_cons, ih]

theorem lab_product_zip (s t : List String) :
    (lab_product s t).1.zip (lab_product s t).2 = prodPairs s t := by
  induction s with
  | nil => rfl
  | cons a s ih =>
    simp only [lab_product, prodPairs, List.flatMap_cons] at ih ⊢
    rw [List.zip_append (by simp), zip_map_const, ih]

theorem lab_product_length_fst (s t : List String) :
    (lab_product s t).1.length = s.length * t.length := by
  induction s with
  | nil => simp [lab_product]
  | cons a s ih =>
    simp only [lab_product, List.flatMap_cons, List.length_append, List.length_map,
      List.length_cons] at ih ⊢
    rw [ih, Nat.succ_mul]
    exact Nat.add_comm _ _

theorem lab_product_length_snd (s t : List String) :
    (lab_product s t).2.length = s.length * t.length := by
  induction s with
  | nil => simp [lab_product]
  | cons a s ih =>
    simp only [lab_product, List.flatMap_cons, List.length_append, List.length_cons] at ih ⊢
    rw [ih, Nat.succ_mul]
    exact Nat.add_comm _ _

theorem prodPairs_length (s t : List String) :
    (prodPairs s t).length = s.length * t.length := by
  induction s with
  | nil => simp [prodPairs]
  | cons a s ih =>
    simp only [prodPairs, List.flatMap_cons, List.length_append, List.length_map,
      List.length_cons] at ih ⊢
    rw [ih, Nat.succ_mul]
    exact Nat.add_comm _ _

theorem zip_flatten_lab (srcLabs : List String) (g : Nat → List String)
    (cands : List (Nat × ℚ)) :
    (cands.map (fun cd => (lab_product srcLabs (g cd.1)).1)).flatten.zip
      (cands.map (fun cd => (lab_product srcLabs (g cd.1)).2)).flatten
    = (cands.map (fun cd => prodPairs srcLabs (g cd.1))).flatten := by
  induction cands with
  | nil => rfl
  | cons cd cands ih =>
    simp only [List.map_cons, List.flatten_cons]
    rw [List.zip_append (by rw [lab_product_length_fst, lab_product_length_snd]),
      lab_product_zip, ih]

theorem lab_products_foldl (srcLabs : List String) (g : Nat → List String)
    (cands : List (Nat × ℚ)) (a b : List String) (c : List Nat) :
    cands.foldl
      (fun (acc : List String × List String × List Nat) (cand : Nat × ℚ) =>
        let tgt_ent_labs := g cand.1
        let out := lab_product srcLabs tgt_ent_labs
        (acc.1 ++ out.1, acc.2.1 ++ out.2, acc.2.2 ++ [out.1.length]))
      (a, b, c)
    = (a ++ (cands.map (fun cd => (lab_product srcLabs (g cd.1)).1)).flatten,
       b ++ (cands.map (fun cd => (lab_product srcLabs (g cd.1)).2)).flatten,
       c ++ cands.map (fun cd => (lab_product srcLabs (g cd.1)).1.length)) := by
  induction cands generalizing a b c with
  | nil => simp
  | cons cd cands ih =>
    simp only [List.foldl_cons, List.map_cons, List.flatten_cons]
    rw [ih]
    simp [List.append_assoc]

theorem lab_products_for_ent_eq (f g : Nat → List String) (id0 : Nat)
    (cands : List (Nat × ℚ)) :
    lab_products_for_ent f g id0 cands
      = ((entGroups f g id0 cands).flatten,
         cands.map (fun cd => (f id0).length * (g cd.1).length)) := by
  simp only [lab_products_for_ent]
  rw [lab_products_foldl]
  simp only [List.nil_append]
  congr 1
  · rw [zip_flatten_lab, entGroups]
  · apply List.map_congr_left
    intro cd _
    exact lab_product_length_fst (f id0) (g cd.1)

theorem batchedGo_eq_chunkGroupsGo (bs : Nat) (gs : List (List (String × String)))
    (pre : List (String × String)) (cur : List (List (String × String))) :
    batchedGo (pre ++ gs.flatten) bs (gs.map List.length) pre.length (renderChunk cur)
      = (chunkGroupsGo bs gs cur).map renderChunk := by
  induction gs generalizing pre cur with
  | nil => simp [batchedGo, chunkGroupsGo]
  | cons g gs ih =>
    cases gs with
    | nil =>
      simp only [List.map_cons, List.map_nil, List.flatten_cons, List.flatten_nil,
        List.append_nil, batchedGo, chunkGroupsGo, renderChunk]
      rw [List.drop_left, List.take_length]
      simp [List.flatten_append]
    | cons g2 rest =>
      have hL : pre ++ (g :: g2 :: rest).flatten = (pre ++ g) ++ (g2 :: rest).flatten := by
        simp [List.flatten_cons, List.append_assoc]
      have hsl : (((pre ++ g) ++ (g2 :: rest).flatten).drop pre.length).take g.length = g := by
        rw [List.append_assoc, List.drop_left, List.take_left]
      rw [hL]
      simp only [List.map_cons, batchedGo, chunkGroupsGo, hsl, renderChunk]
      simp only [List.map_append, List.map_cons, List.map_nil, List.sum_append,
        List.sum_cons, List.sum_nil]
      split
      · rw [List.map_cons]
        congr 1
        · simp [renderChunk, List.flatten_append]
        · have h2 := ih (pre ++ g) []
          simp only [List.map_cons, List.length_append, renderChunk, List.flatten_nil,
            List.map_nil] at h2
          exact h2
      · have h2 := ih (pre ++ g) (cur ++ [g])
        simp only [List.map_cons, List.length_append, renderChunk, List.flatten_append,
          List.map_append, List.flatten_cons, List.flatten_nil, List.append_nil,
          List.map_nil] at h2
        exact h2

theorem flatten_map_flatten (L : List (List (List (String × String)))) :
    (L.map List.flatten).flatten = L.flatten.flatten := by
  induction L with
  | nil => rfl
  | cons c L ih =>
    simp only [List.map_cons, List.flatten_cons, List.flatten_append, ih]

theorem batched_eq_renderChunks (f g : Nat → List String) (id0 : Nat)
    (cands : List (Nat × ℚ)) (bs : Nat) :
    batched_lab_products_for_ent f g id0 cands bs
      = (chunkGroups bs (entGroups f g id0 cands)).map renderChunk := by
  have hlens : cands.map (fun cd => (f id0).length * (g cd.1).length)
      = (entGroups f g id0 cands).map List.length := by
    rw [entGroups, List.map_map]
    apply List.map_congr_left
    intro cd _
    exact (prodPairs_length (f id0) (g cd.1)).symm
  have hkey := batchedGo_eq_chunkGroupsGo bs (entGroups f g id0 cands) [] []
  simp only [List.nil_append, List.length_nil] at hkey
  rw [batched_lab_products_for_ent, lab_products_for_ent_eq, hlens]
  exact hkey

theorem chunkGroupsGo_ne_nil (bs : Nat) (gs cur : List (List (String × String))) :
    gs ≠ [] → chunkGroupsGo bs gs cur ≠ [] := by
  induction gs generalizing cur with
  | nil => intro h; exact absurd rfl h
  | cons g gs ih =>
    intro _
    cases gs with
    | nil => simp [chunkGroupsGo]
    | cons g2 rest =>
      simp only [chunkGroupsGo]
      split
      · simp
      · exact ih (cur ++ [g]) (by simp)

theorem chunkGroupsGo_flatten (bs : Nat) (gs cur : List (List (String × String))) :
    gs ≠ [] → (chunkGroupsGo bs gs cur).flatten = cur ++ gs := by
  induction gs generalizing cur with
  | nil => intro h; exact absurd rfl h
  | cons g gs ih =>
    intro _
    cases gs with
    | nil => simp [chunkGroupsGo]
    | cons g2 rest =>
      simp only [chunkGroupsGo]
      split
      · simp only [List.flatten_cons, ih [] (by simp), List.nil_append]
        simp
      · rw [ih (cur ++ [g]) (by simp)]
        simp

theorem chunkGroupsGo_dropLast_sum (bs : Nat) (gs cur : List (List (String × String))) :
    ∀ ch ∈ (chunkGroupsGo bs gs cur).dropLast, bs < (ch.map List.length).sum := by
  induction gs generalizing cur with
  | nil => simp [chunkGroupsGo]
  | cons g gs ih =>
    cases gs with
    | nil => simp [chunkGroupsGo]
    | cons g2 rest =>
      simp only [chunkGroupsGo]
      split
      · rw [List.dropLast_cons_of_ne_nil (chunkGroupsGo_ne_nil bs (g2 :: rest) [] (by simp))]
        intro ch hch
        rcases List.mem_cons.mp hch with rfl | hmem
        · assumption
        · exact ih [] ch hmem
      · exact ih (cur ++ [g])

theorem chunkGroupsGo_mem_ne_nil (bs : Nat) (gs cur : List (List (String × String))) :
    ∀ ch ∈ chunkGroupsGo bs gs cur, ch ≠ [] := by
  induction gs generalizing cur with
  | nil => simp [chunkGroupsGo]
  | cons g gs ih =>
    cases gs with
    | nil =>
      intro ch hch
      simp only [chunkGroupsGo, List.mem_singleton] at hch
      subst hch
      simp
    | cons g2 rest =>
      simp only [chunkGroupsGo]
      split
      · intro ch hch
        rcases List.mem_cons.mp hch with rfl | hmem
        · simp
        · exact ih [] ch hmem
      · exact ih (cur ++ [g])

theorem chunkGroupsGo_take_sum (bs : Nat) (gs cur : List (List (String × String)))
    (hcur : ∀ k, 0 < k → k ≤ cur.length → ((cur.take k).map List.length).sum ≤ bs) :
    ∀ ch ∈ chunkGroupsGo bs gs cur,
      ∀ k, 0 < k → k < ch.length → ((ch.take k).map List.length).sum ≤ bs := by
  induction gs generalizing cur with
  | nil => simp [chunkGroupsGo]
  | cons g gs ih =>
    cases gs with
    | nil =>
      intro ch hch k hk0 hklt
      simp only [chunkGroupsGo, List.mem_singleton] at hch
      subst hch
      have hkle : k ≤ cur.length := by
        simp only [List.length_append, List.length_cons, List.length_nil] at hklt
        omega
      rw [List.take_append_of_le_length hkle]
      exact hcur k hk0 hkle
    | cons g2 rest =>
      simp only [chunkGroupsGo]
      split
      · intro ch hch k hk0 hklt
        rcases List.mem_cons.mp hch with rfl | hmem
        · have hkle : k ≤ cur.length := by
            simp only [List.length_append, List.length_cons, List.length_nil] at hklt
            omega
          rw [List.take_append_of_le_length hkle]
          exact hcur k hk0 hkle
        · exact ih [] (by intro k hk0 hkle; simp at hkle; omega) ch hmem k hk0 hklt
      · rename_i hnot
        refine ih (cur ++ [g]) ?_
        intro k hk0 hkle
        rcases Nat.lt_or_ge k (cur.length + 1) with hlt | hge
        · have hkle2 : k ≤ cur.length := by omega
          rw [List.take_append_of_le_length hkle2]
          exact hcur k hk0 hkle2
        · have hkeq : k = (cur ++ [g]).length := by
            simp only [List.length_append, List.length_cons, List.length_nil] at hkle ⊢
            omega
          rw [hkeq, List.take_length]
          exact Nat.le_of_not_lt hnot

theorem chunkGroups_flatten_eq (bs : Nat) (groups : List (List (String × String))) :
    (chunkGroups bs groups).flatten = groups := by
  cases groups with
  | nil => rfl
  | cons g gs => exact chunkGroupsGo_flatten bs (g :: gs) [] (by simp)

/-- C1: for every source entity, candidate list and batch size,
`batched_lab_products_for_ent` produces batches whose concatenated label-pair
lists reproduce exactly the output of `lab_products_for_ent` — the full ordered
Cartesian product of the source entity's labels with each candidate's labels,
in candidate order — and whose concatenated group-length lists reproduce the
per-candidate product lengths `|src_labs| * |cand_labs|`. -/
theorem batched_lab_products_for_ent_concat (f g : Nat → List String) (id0 : Nat)
    (cands : List (Nat × ℚ)) (bs : Nat) :
    ((batched_lab_products_for_ent f g id0 cands bs).map Batch.labs).flatten
        = (lab_products_for_ent f g id0 cands).1
    ∧ ((batched_lab_products_for_ent f g id0 cands bs).map Batch.lens).flatten
        = (lab_products_for_ent f g id0 cands).2
    ∧ (lab_products_for_ent f g id0 cands).1 = (entGroups f g id0 cands).flatten
    ∧ (lab_products_for_ent f g id0 cands).2
        = cands.map (fun cd => (f id0).length * (g cd.1).length) := by
  have heq := lab_products_for_ent_eq f g id0 cands
  have hb := batched_eq_renderChunks f g id0 cands bs
  have hflat := chunkGroups_flatten_eq bs (entGroups f g id0 cands)
  refine ⟨?_, ?_, by rw [heq], by rw [heq]⟩
  · rw [hb, heq, List.map_map]
    have : (Batch.labs ∘ renderChunk) = List.flatten := rfl
    rw [this, flatten_map_flatten, hflat]
  · rw [hb, heq, List.map_map]
    have h1 : (Batch.lens ∘ renderChunk) = List.map List.length := rfl
    rw [h1, ← List.map_flatten, hflat]
    have h2 : cands.map (fun cd => (f id0).length * (g cd.1).length)
        = (entGroups f g id0 cands).map List.length := by
      rw [entGroups, List.map_map]
      apply List.map_congr_left
      intro cd _
      exact (prodPairs_length (f id0) (g cd.1)).symm
    rw [h2]

/-- C2: the batch under construction is closed exactly when the running
length-sum strictly exceeds the batch size after appending a candidate's group
(`sum(cur_batch.lens) > batch_size`), or when the group appended belonged to
the last candidate: each produced batch is the rendering of a run of whole
consecutive candidate groups (so one candidate's group always lies inside a
single batch, never split, even when it alone exceeds the size); the runs
partition the group list; every batch except the final flushed one has
length-sum strictly above the size; and no proper non-empty leading run of a
batch exceeds the size (it would have been closed earlier otherwise). -/
theorem batched_lab_products_for_ent_batching (f g : Nat → List String) (id0 : Nat)
    (cands : List (Nat × ℚ)) (bs : Nat) :
    batched_lab_products_for_ent f g id0 cands bs
        = (chunkGroups bs (entGroups f g id0 cands)).map renderChunk
    ∧ (chunkGroups bs (entGroups f g id0 cands)).flatten = entGroups f g id0 cands
    ∧ (∀ ch ∈ (chunkGroups bs (entGroups f g id0 cands)).dropLast,
        bs < (ch.map List.length).sum)
    ∧ (∀ ch ∈ chunkGroups bs (entGroups f g id0 cands), ch ≠ [])
    ∧ (∀ ch ∈ chunkGroups bs (entGroups f g id0 cands),
        ∀ k, 0 < k → k < ch.length → ((ch.take k).map List.length).sum ≤ bs) := by
  refine ⟨batched_eq_renderChunks f g id0 cands bs,
    chunkGroups_flatten_eq bs (entGroups f g id0 cands),
    chunkGroupsGo_dropLast_sum bs (entGroups f g id0 cands) [],
    chunkGroupsGo_mem_ne_nil bs (entGroups f g id0 cands) [],
    chunkGroupsGo_take_sum bs (entGroups f g id0 cands) [] ?_⟩
  intro k hk0 hkle
  simp only [List.length_nil] at hkle
  omega

/-! ### Direction-control theorems -/

/-- The conditional `switchUntil` satisfies the unfolding equation of the
source's `while not self.flag == flag: self.switch()` loop. -/
theorem switchUntil_loop {α : Type} (s : OntoAlignSt α) (f : AlignFlag) :
    switchUntil s f = if s.flag = f then s else switchUntil (switch s) f := by
  by_cases h : s.flag = f
  · simp [switchUntil, h]
  · have h2 : (switch s).flag = f := by
      cases hf : s.flag <;> cases f <;> simp_all [switch, AlignFlag.next]
    simp [switchUntil, h, h2]

/-- C8: `switch` swaps the source-catalog and target-catalog references and
advances the direction flag to the other of the two values; applying `switch`
twice is the identity on the whole (source ref, target ref, flag, n_best)
state. -/
theorem switch_involutive {α : Type} (s : OntoAlignSt α) :
    switch (switch s) = s
    ∧ (switch s).src_onto = s.tgt_onto
    ∧ (switch s).tgt_onto = s.src_onto
    ∧ (switch s).flag = s.flag.next
    ∧ (switch s).flag ≠ s.flag := by
  cases s with
  | mk a b fl nb => cases fl <;> simp [switch, AlignFlag.next]

/-- C5 (failing input for the claim): with a source catalog of one class and a
target catalog of two classes, `pair_score` with flag `"tgt2src"` sets
`n_best` to the size of the catalog the entities are mapped FROM (the
post-switch `src_onto`, here 2), not to the size of the opposite catalog (the
post-switch `tgt_onto`, here 1) as the claim and the code's own inline comment
("maximum number of mappings is the number of opposite ontology classes")
require. -/
theorem pair_score_n_best_bug :
    (pair_score_st ⟨["a1"], ["b1", "b2"], .src2tgt, 10⟩ .tgt2src).n_best = 2
    ∧ (switchUntil (⟨["a1"], ["b1", "b2"], .src2tgt, 10⟩ : OntoAlignSt (List String))
        .tgt2src).tgt_onto.length = 1
    ∧ (pair_score_st ⟨["a1"], ["b1", "b2"], .src2tgt, 10⟩ .tgt2src).n_best
        ≠ (switchUntil (⟨["a1"], ["b1", "b2"], .src2tgt, 10⟩ : OntoAlignSt (List String))
            .tgt2src).tgt_onto.length := by
  refine ⟨rfl, rfl, by decide⟩

/-- C9: `pair_score` permanently overwrites the engine's `n_best` field with
the computed class count (the restore of the previous value is commented out
in the source): the post-call `n_best` equals the computed count on the
post-switch state and is independent of whatever `n_best` value the engine
held before the call, so every later operation of the same engine state sees
the new value. -/
theorem pair_score_n_best_permanent (s : OntoAlignSt (List String)) (f : AlignFlag)
    (n n' : Nat) :
    (pair_score_st s f).n_best = pair_score_max_num (switchUntil s f) f
    ∧ pair_score_st { s with n_best := n } f = pair_score_st { s with n_best := n' } f := by
  refine ⟨rfl, ?_⟩
  cases s with
  | mk a b fl nb =>
    cases f <;> cases fl <;>
      simp [pair_score_st, switchUntil, switch, pair_score_max_num, AlignFlag.next]

/-- C7: from any state satisfying the role-coupling invariant for constructor
catalogs `A`, `B`, `global_match` forces the canonical `src2tgt` direction,
runs it fully, switches exactly once, runs `tgt2src` fully, and finally renews
back, so the returned state has flag `src2tgt` and the two catalog references
in their original construction roles; the event trace is exactly an optional
initial corrective switch, the `src2tgt` run, one switch, the `tgt2src` run,
and the final renewing switch. -/
theorem global_match_trace {α : Type} (A B : α) (s : OntoAlignSt α)
    (hInv : RolesInv A B s) :
    (global_matchT s).1 = ⟨A, B, .src2tgt, s.n_best⟩
    ∧ (global_matchT s).2
        = (if s.flag = .src2tgt then [] else [AlignEv.sw])
          ++ [AlignEv.run .src2tgt, AlignEv.sw, AlignEv.run .tgt2src, AlignEv.sw] := by
  cases s with
  | mk a b fl nb =>
    rcases hInv with ⟨hf, hs, ht⟩ | ⟨hf, hs, ht⟩ <;>
      simp only at hf hs ht <;> subst hf <;> subst hs <;> subst ht <;>
        simp [global_matchT, switchUntilT, switch, AlignFlag.next]

/-- Witness for C7 at a concrete state satisfying the invariant. -/
theorem global_match_trace_witness :
    RolesInv ["x"] ["y"] (⟨["x"], ["y"], .src2tgt, 10⟩ : OntoAlignSt (List String))
    ∧ (global_matchT (⟨["x"], ["y"], .src2tgt, 10⟩ : OntoAlignSt (List String))).1
        = ⟨["x"], ["y"], .src2tgt, 10⟩ :=
  ⟨Or.inl ⟨rfl, rfl, rfl⟩,
   (global_match_trace ["x"] ["y"] _ (Or.inl ⟨rfl, rfl, rfl⟩)).1⟩

/-! ### Store-key and chunk lemmas -/

theorem storeAdd_keys_mem (nBest : Nat) (st : MapStore) (m : EntityMapping) (k : String) :
    k ∈ storeKeys (storeAdd nBest st m) ↔ (k ∈ storeKeys st ∨ k = m.src) := by
  by_cases h : st.any (fun e => e.1 == m.src)
  · have hsrc : m.src ∈ storeKeys st := by
      rw [List.any_eq_true] at h
      obtain ⟨e, he, hpe⟩ := h
      rw [beq_iff_eq] at hpe
      rw [storeKeys, List.mem_map]
      exact ⟨e, he, hpe⟩
    have hkeys : storeKeys (storeAdd nBest st m) = storeKeys st := by
      rw [storeAdd, if_pos h, storeKeys, List.map_map, storeKeys]
      apply List.map_congr_left
      intro e _
      by_cases he : e.1 == m.src <;> simp [Function.comp, he]
    rw [hkeys]
    constructor
    · exact Or.inl
    · rintro (hk | rfl)
      · exact hk
      · exact hsrc
  · rw [storeAdd, if_neg h, storeKeys, List.map_append]
    rw [storeKeys, List.mem_append]
    simp

theorem storeAddMany_keys_mem (nBest : Nat) (st : MapStore) (ms : List EntityMapping)
    (k : String) :
    k ∈ storeKeys (storeAddMany nBest st ms)
      ↔ (k ∈ storeKeys st ∨ ∃ m ∈ ms, k = m.src) := by
  induction ms generalizing st with
  | nil => simp [storeAddMany]
  | cons m ms ih =>
    rw [storeAddMany, List.foldl_cons]
    have hih := ih (storeAdd nBest st m)
    rw [storeAddMany] at hih
    rw [hih, storeAdd_keys_mem]
    constructor
    · rintro ((hk | rfl) | ⟨m', hm', hk⟩)
      · exact Or.inl hk
      · exact Or.inr ⟨m, List.mem_cons_self m ms, rfl⟩
      · exact Or.inr ⟨m', List.mem_cons_of_mem m hm', hk⟩
    · rintro (hk | ⟨m', hm', hk⟩)
      · exact Or.inl (Or.inl hk)
      · rcases List.mem_cons.mp hm' with rfl | hm2
        · exact Or.inl (Or.inr hk)
        · exact Or.inr ⟨m', hm2, hk⟩

theorem chunk_store_eq_fold (scorer : Nat → List EntityMapping) (keyOf : Nat → String)
    (nBest save_step : Nat) (isave : Bool) (c : List Nat) (st : MapStore) :
    (global_mappings_for_ent_chunk scorer keyOf nBest save_step isave c st).store
      = storeAddMany nBest st
          ((global_mappings_for_ent_chunk scorer keyOf nBest save_step isave c st).results).flatten := by
  induction c generalizing st with
  | nil => rfl
  | cons id rest ih =>
    by_cases h : keyOf id ∈ storeKeys st
    · simp only [global_mappings_for_ent_chunk, if_pos h]
      exact ih st
    · simp only [global_mappings_for_ent_chunk, if_neg h]
      rw [ih (storeAddMany nBest st (scorer id)), List.flatten_cons]
      conv_rhs => rw [storeAddMany, List.foldl_append]
      rfl

theorem chunk_append (scorer : Nat → List EntityMapping) (keyOf : Nat → String)
    (nBest save_step : Nat) (isave : Bool) (a b : List Nat) (st : MapStore) :
    global_mappings_for_ent_chunk scorer keyOf nBest save_step isave (a ++ b) st
      = ⟨(global_mappings_for_ent_chunk scorer keyOf nBest save_step isave b
            (global_mappings_for_ent_chunk scorer keyOf nBest save_step isave a st).store).store,
         (global_mappings_for_ent_chunk scorer keyOf nBest save_step isave a st).results
           ++ (global_mappings_for_ent_chunk scorer keyOf nBest save_step isave b
                 (global_mappings_for_ent_chunk scorer keyOf nBest save_step isave a st).store).results,
         (global_mappings_for_ent_chunk scorer keyOf nBest save_step isave a st).saves
           + (global_mappings_for_ent_chunk scorer keyOf nBest save_step isave b
                 (global_mappings_for_ent_chunk scorer keyOf nBest save_step isave a st).store).saves⟩ := by
  induction a generalizing st with
  | nil => simp [global_mappings_for_ent_chunk]
  | cons id rest ih =>
    by_cases h : keyOf id ∈ storeKeys st
    · simp only [List.cons_append, global_mappings_for_ent_chunk, if_pos h, List.append_eq]
      exact ih st
    · simp only [List.cons_append, global_mappings_for_ent_chunk, if_neg h, List.append_eq]
      rw [ih (storeAddMany nBest st (scorer id))]
      simp [Nat.add_assoc]

theorem chunk_results_congr (scorer : Nat → List EntityMapping) (keyOf : Nat → String)
    (nBest save_step save_step' : Nat) (isave isave' : Bool) (c : List Nat)
    (st st' : MapStore)
    (h : ∀ id ∈ c, (keyOf id ∈ storeKeys st ↔ keyOf id ∈ storeKeys st')) :
    (global_mappings_for_ent_chunk scorer keyOf nBest save_step isave c st).results
      = (global_mappings_for_ent_chunk scorer keyOf nBest save_step' isave' c st').results := by
  induction c generalizing st st' with
  | nil => rfl
  | cons id rest ih =>
    have hid := h id (List.mem_cons_self id rest)
    by_cases hk : keyOf id ∈ storeKeys st
    · have hk' : keyOf id ∈ storeKeys st' := hid.mp hk
      simp only [global_mappings_for_ent_chunk, if_pos hk, if_pos hk']
      exact ih st st' (fun i hi => h i (List.mem_cons_of_mem id hi))
    · have hk' : keyOf id ∉ storeKeys st' := fun hx => hk (hid.mpr hx)
      simp only [global_mappings_for_ent_chunk, if_neg hk, if_neg hk']
      have hrec : ∀ i ∈ rest,
          (keyOf i ∈ storeKeys (storeAddMany nBest st (scorer id))
            ↔ keyOf i ∈ storeKeys (storeAddMany nBest st' (scorer id))) := by
        intro i hi
        rw [storeAddMany_keys_mem, storeAddMany_keys_mem]
        have := h i (List.mem_cons_of_mem id hi)
        tauto
      rw [ih (storeAddMany nBest st (scorer id)) (storeAddMany nBest st' (scorer id)) hrec]

theorem chunk_keys_outside (scorer : Nat → List EntityMapping) (keyOf : Nat → String)
    (nBest save_step : Nat) (isave : Bool) (c : List Nat) (st : MapStore) (k : String)
    (hsrc : ∀ id ∈ c, ∀ m ∈ scorer id, m.src = keyOf id)
    (hk : k ∉ c.map keyOf) :
    (k ∈ storeKeys (global_mappings_for_ent_chunk scorer keyOf nBest save_step isave c st).store
      ↔ k ∈ storeKeys st) := by
  induction c generalizing st with
  | nil => exact Iff.rfl
  | cons id rest ih =>
    have hkid : k ≠ keyOf id := by
      intro hkeq
      apply hk
      rw [List.map_cons, hkeq]
      exact List.mem_cons_self _ _
    have hkrest : k ∉ rest.map keyOf := by
      intro hmem
      exact hk (by rw [List.map_cons]; exact List.mem_cons_of_mem _ hmem)
    by_cases h : keyOf id ∈ storeKeys st
    · simp only [global_mappings_for_ent_chunk, if_pos h]
      exact ih st (fun i hi => hsrc i (List.mem_cons_of_mem id hi)) hkrest
    · simp only [global_mappings_for_ent_chunk, if_neg h]
      rw [ih (storeAddMany nBest st (scorer id))
        (fun i hi => hsrc i (List.mem_cons_of_mem id hi)) hkrest]
      rw [storeAddMany_keys_mem]
      constructor
      · rintro (hx | ⟨m, hm, rfl⟩)
        · exact hx
        · exact absurd (hsrc id (List.mem_cons_self id rest) m hm) hkid
      · exact Or.inl

theorem fold_workers_gen (scorer : Nat → List EntityMapping) (keyOf : Nat → String)
    (nBest save_step : Nat) (chunks : List (List Nat)) (st st₀ : MapStore)
    (hnd : ((chunks.flatten).map keyOf).Nodup)
    (hsrc : ∀ id ∈ chunks.flatten, ∀ m ∈ scorer id, m.src = keyOf id)
    (hequiv : ∀ id ∈ chunks.flatten,
      (keyOf id ∈ storeKeys st ↔ keyOf id ∈ storeKeys st₀)) :
    foldWorkerResults nBest st (workerResults scorer keyOf nBest save_step chunks st₀)
      = (global_mappings_for_ent_chunk scorer keyOf nBest save_step true
          chunks.flatten st).store := by
  induction chunks generalizing st with
  | nil => rfl
  | cons c cs ih =>
    have hmemc : ∀ id ∈ c, id ∈ (c :: cs).flatten := by
      intro id hid
      rw [List.flatten_cons, List.mem_append]
      exact Or.inl hid
    have hmemcs : ∀ id ∈ cs.flatten, id ∈ (c :: cs).flatten := by
      intro id hid
      rw [List.flatten_cons, List.mem_append]
      exact Or.inr hid
    have hnd2 : ((c.map keyOf) ++ (cs.flatten.map keyOf)).Nodup := by
      rw [← List.map_append, ← List.flatten_cons]
      exact hnd
    have hdisj := (List.nodup_append.mp hnd2).2.2
    have hndcs : ((cs.flatten).map keyOf).Nodup := (List.nodup_append.mp hnd2).2.1
    have ht := chunk_results_congr scorer keyOf nBest save_step save_step false true c st₀ st
      (fun id hid => (hequiv id (hmemc id hid)).symm)
    rw [workerResults, List.map_cons]
    simp only [foldWorkerResults, List.foldl_cons]
    rw [ht]
    rw [← chunk_store_eq_fold scorer keyOf nBest save_step true c st]
    rw [List.flatten_cons, chunk_append]
    have hequiv2 : ∀ id ∈ cs.flatten,
        (keyOf id ∈ storeKeys
            (global_mappings_for_ent_chunk scorer keyOf nBest save_step true c st).store
          ↔ keyOf id ∈ storeKeys st₀) := by
      intro id hid
      have hnotin : keyOf id ∉ c.map keyOf := by
        intro hin
        exact hdisj hin (List.mem_map_of_mem keyOf hid)
      rw [chunk_keys_outside scorer keyOf nBest save_step true c st (keyOf id)
        (fun i hi m hm => hsrc i (hmemc i hi) m hm) hnotin]
      exact hequiv id (hmemcs id hid)
    have hrec := ih
      ((global_mappings_for_ent_chunk scorer keyOf nBest save_step true c st).store)
      hndcs (fun id hid => hsrc id (hmemcs id hid)) hequiv2
    rw [workerResults] at hrec
    simp only [foldWorkerResults] at hrec
    exact hrec

theorem find?_map_keys (f : String × List (String × ℚ) → String × List (String × ℚ))
    (hf : ∀ e, (f e).1 = e.1) (st : MapStore) (k : String) :
    (st.map f).find? (fun e => e.1 == k) = (st.find? (fun e => e.1 == k)).map f := by
  induction st with
  | nil => rfl
  | cons e st ih =>
    by_cases h : (e.1 == k) = true
    · rw [List.map_cons, List.find?_cons_of_pos st h,
        List.find?_cons_of_pos (st.map f) (by rw [hf]; exact h)]
      rfl
    · rw [List.map_cons, List.find?_cons_of_neg st h,
        List.find?_cons_of_neg (st.map f) (by rw [hf]; exact h)]
      exact ih

theorem storeAdd_lookup (nBest : Nat) (st : MapStore) (m : EntityMapping) (k : String) :
    storeLookup (storeAdd nBest st m) k
      = if k = m.src
        then some ((sortDesc (updateInner ((storeLookup st k).getD [])
            m.tgt m.score)).take nBest)
        else storeLookup st k := by
  by_cases hany : st.any (fun e => e.1 == m.src)
  · rw [storeAdd, if_pos hany, storeLookup,
      find?_map_keys _ (fun e => by by_cases he : (e.1 == m.src) = true <;> simp [he]) st k]
    cases hfind : st.find? (fun e => e.1 == k) with
    | none =>
      by_cases hk : k = m.src
      · exfalso
        rw [List.any_eq_true] at hany
        obtain ⟨e, he, hpe⟩ := hany
        have hsome : (st.find? (fun e => e.1 == k)).isSome :=
          List.find?_isSome.mpr ⟨e, he, by rw [hk]; exact hpe⟩
        rw [hfind] at hsome
        simp at hsome
      · simp [storeLookup, hfind, hk]
    | some e =>
      have h0 := List.find?_some hfind
      have hek : e.1 = k := by rwa [beq_iff_eq] at h0
      have hlook : storeLookup st k = some e.2 := by
        rw [storeLookup, hfind]
        rfl
      by_cases hk : k = m.src
      · have hem : (e.1 == m.src) = true := by
          rw [beq_iff_eq, hek]
          exact hk
        rw [if_pos hk, hlook]
        simp [hem]
        rw [if_pos (hek.trans hk)]
      · have hem : (e.1 == m.src) = false := by
          rw [beq_eq_false_iff_ne, hek]
          exact hk
        rw [if_neg hk, hlook]
        simp [hem]
        rw [if_neg (show ¬ e.1 = m.src by rw [hek]; exact hk)]
  · rw [storeAdd, if_neg hany]
    have hnone : st.find? (fun e => e.1 == m.src) = none := by
      rw [List.find?_eq_none]
      intro e he hpe
      exact hany (List.any_eq_true.mpr ⟨e, he, hpe⟩)
    by_cases hk : k = m.src
    · subst hk
      have hlook : storeLookup st m.src = none := by
        rw [storeLookup, hnone]
        rfl
      rw [if_pos rfl, hlook, storeLookup, List.find?_append, hnone]
      simp [List.find?]
    · rw [if_neg hk, storeLookup, List.find?_append]
      have h2 : ([(m.src, (sortDesc (updateInner [] m.tgt m.score)).take nBest)].find?
          (fun e => e.1 == k)) = none := by
        rw [List.find?_eq_none]
        intro e he hpe
        rw [List.mem_singleton] at he
        subst he
        rw [beq_iff_eq] at hpe
        exact hk hpe.symm
      rw [h2, storeLookup]
      cases st.find? (fun e => e.1 == k) <;> rfl

theorem storeAddMany_lookup (nBest : Nat) (st : MapStore) (ms : List EntityMapping)
    (k : String) :
    storeLookup (storeAddMany nBest st ms) k
      = applyInnerAdds nBest (storeLookup st k) (ms.filter (fun m => m.src == k)) := by
  induction ms generalizing st with
  | nil => rfl
  | cons m ms ih =>
    rw [storeAddMany, List.foldl_cons]
    have hih := ih (storeAdd nBest st m)
    rw [storeAddMany] at hih
    rw [hih, storeAdd_lookup, List.filter_cons]
    by_cases hm : m.src = k
    · have hb : (m.src == k) = true := by rw [beq_iff_eq]; exact hm
      rw [hb, if_pos rfl, if_pos hm.symm]
      rfl
    · have hb : (m.src == k) = false := by rw [beq_eq_false_iff_ne]; exact hm
      rw [hb]
      simp only [Bool.false_eq_true, if_false]
      rw [if_neg (fun h => hm h.symm)]

theorem foldWorkerResults_eq_addMany (nBest : Nat) (st : MapStore)
    (L : List (List (List EntityMapping))) :
    foldWorkerResults nBest st L = storeAddMany nBest st (L.map List.flatten).flatten := by
  induction L generalizing st with
  | nil => rfl
  | cons r L ih =>
    have hih := ih (storeAddMany nBest st r.flatten)
    simp only [foldWorkerResults, List.foldl_cons] at hih ⊢
    rw [hih, List.map_cons, List.flatten_cons]
    conv_rhs => rw [storeAddMany, List.foldl_append]
    rfl

theorem flatten_perm_of_subsingleton (M M' : List (List EntityMapping))
    (hp : M.Perm M') :
    M.countP (fun l => !l.isEmpty) ≤ 1 → M.flatten = M'.flatten := by
  induction hp with
  | nil => intro _; rfl
  | cons x hp ih =>
    intro hc
    rw [List.countP_cons] at hc
    simp only [List.flatten_cons]
    rw [ih (by omega)]
  | swap x y l =>
    intro hc
    rw [List.countP_cons, List.countP_cons] at hc
    simp only [List.flatten_cons]
    by_cases hx : x.isEmpty
    · rw [List.isEmpty_iff] at hx
      subst hx
      simp
    · by_cases hy : y.isEmpty
      · rw [List.isEmpty_iff] at hy
        subst hy
        simp
      · exfalso
        rw [Bool.not_eq_true] at hx hy
        rw [hx, hy] at hc
        simp only [Bool.not_false, if_true] at hc
        omega
  | trans h1 h2 ih1 ih2 =>
    intro hc
    rw [ih1 hc, ih2 (by rw [← h1.countP_eq]; exact hc)]

theorem chunk_results_mem (scorer : Nat → List EntityMapping) (keyOf : Nat → String)
    (nBest save_step : Nat) (isave : Bool) (c : List Nat) (st : MapStore) :
    ∀ r ∈ (global_mappings_for_ent_chunk scorer keyOf nBest save_step isave c st).results,
      ∃ id, id ∈ c ∧ r = scorer id := by
  induction c generalizing st with
  | nil =>
    intro r hr
    simp [global_mappings_for_ent_chunk] at hr
  | cons id rest ih =>
    intro r hr
    by_cases h : keyOf id ∈ storeKeys st
    · simp only [global_mappings_for_ent_chunk, if_pos h] at hr
      obtain ⟨i, hi, hr2⟩ := ih st r hr
      exact ⟨i, List.mem_cons_of_mem id hi, hr2⟩
    · simp only [global_mappings_for_ent_chunk, if_neg h] at hr
      rcases List.mem_cons.mp hr with rfl | hmem
      · exact ⟨id, List.mem_cons_self id rest, rfl⟩
      · obtain ⟨i, hi, hr2⟩ := ih (storeAddMany nBest st (scorer id)) r hmem
        exact ⟨i, List.mem_cons_of_mem id hi, hr2⟩

theorem countP_key_in_chunks_le_one (keyOf : Nat → String) (chunks : List (List Nat))
    (k : String) (hnd : ((chunks.flatten).map keyOf).Nodup) :
    chunks.countP (fun c => decide (k ∈ c.map keyOf)) ≤ 1 := by
  induction chunks with
  | nil => simp
  | cons c cs ih =>
    rw [List.countP_cons]
    have hnd2 : ((c.map keyOf) ++ (cs.flatten.map keyOf)).Nodup := by
      rw [← List.map_append, ← List.flatten_cons]
      exact hnd
    have hdisj := (List.nodup_append.mp hnd2).2.2
    have hndcs := (List.nodup_append.mp hnd2).2.1
    by_cases hk : k ∈ c.map keyOf
    · have hzero : cs.countP (fun c2 => decide (k ∈ c2.map keyOf)) = 0 := by
        rw [List.countP_eq_zero]
        intro c2 hc2
        simp only [decide_eq_true_eq]
        intro hk2
        apply hdisj hk
        rw [List.mem_map] at hk2
        obtain ⟨i, hi, rfl⟩ := hk2
        exact List.mem_map_of_mem keyOf (List.mem_flatten.mpr ⟨c2, hc2, hi⟩)
      rw [hzero]
      simp [hk]
    · have hle := ih hndcs
      simpa [hk] using hle

/-- C3: for a deterministic per-entity scorer, running the alignment in
parallel over any chunk partition of the entity ids — each worker executing
the chunk procedure against its own copy of the initial store with no
intermediate saving, the controller folding every worker's full result list
into the shared store once after all workers join, in any completion order —
produces a store with the same content at every source key as the sequential
chunk run over the same entity ids, provided the entity keys are pairwise
distinct and every entity's mappings carry that entity's own key. -/
theorem parallel_eq_sequential (scorer : Nat → List EntityMapping)
    (keyOf : Nat → String) (nBest save_step : Nat) (chunks : List (List Nat))
    (st₀ : MapStore) (resultsPerm : List (List (List EntityMapping)))
    (hnd : ((chunks.flatten).map keyOf).Nodup)
    (hsrc : ∀ id ∈ chunks.flatten, ∀ m ∈ scorer id, m.src = keyOf id)
    (hperm : resultsPerm.Perm (workerResults scorer keyOf nBest save_step chunks st₀)) :
    StoreContentEq (foldWorkerResults nBest st₀ resultsPerm)
      (global_mappings_for_ent_chunk scorer keyOf nBest save_step true
        chunks.flatten st₀).store := by
  intro k
  rw [← fold_workers_gen scorer keyOf nBest save_step chunks st₀ st₀ hnd hsrc
    (fun id _ => Iff.rfl)]
  rw [foldWorkerResults_eq_addMany, foldWorkerResults_eq_addMany,
    storeAddMany_lookup, storeAddMany_lookup]
  congr 1
  rw [List.filter_flatten, List.filter_flatten, List.map_map, List.map_map]
  apply flatten_perm_of_subsingleton _ _
    (hperm.map ((List.filter (fun m => m.src == k)) ∘ List.flatten))
  rw [(hperm.map ((List.filter (fun m => m.src == k)) ∘ List.flatten)).countP_eq]
  rw [workerResults, List.map_map, List.countP_map]
  calc (chunks.countP (((fun l => !l.isEmpty)) ∘
          ((List.filter (fun m => m.src == k)) ∘ List.flatten) ∘
          (fun c => (global_mappings_for_ent_chunk scorer keyOf nBest save_step
            false c st₀).results)))
      ≤ chunks.countP (fun c => decide (k ∈ c.map keyOf)) := by
        apply List.countP_mono_left
        intro c hc hne
        simp only [Function.comp, Bool.not_eq_true'] at hne
        have hne2 : (List.filter (fun m => m.src == k)
            (global_mappings_for_ent_chunk scorer keyOf nBest save_step
              false c st₀).results.flatten) ≠ [] := by
          intro hnil
          rw [hnil] at hne
          simp at hne
        simp only [decide_eq_true_eq]
        obtain ⟨m, hm⟩ := List.exists_mem_of_ne_nil _ hne2
        simp only [List.mem_filter, List.mem_flatten, beq_iff_eq] at hm
        obtain ⟨⟨r, hr, hmr⟩, hpk⟩ := hm
        obtain ⟨i, hi, rfl⟩ := chunk_results_mem scorer keyOf nBest save_step
          false c st₀ r hr
        have hik : m.src = keyOf i :=
          hsrc i (List.mem_flatten.mpr ⟨c, hc, hi⟩) m hmr
        rw [← hpk, hik]
        exact List.mem_map_of_mem keyOf hi
    _ ≤ 1 := countP_key_in_chunks_le_one keyOf chunks k hnd

/-- Witness for C3: two singleton chunks, the workers' result lists folded in
reversed completion order. -/
theorem parallel_eq_sequential_witness :
    StoreContentEq
      (foldWorkerResults 10 []
        ((workerResults wScorer wKeyOf 10 100 [[0], [1]] []).reverse))
      (global_mappings_for_ent_chunk wScorer wKeyOf 10 100 true
        ([[0], [1]] : List (List Nat)).flatten []).store :=
  parallel_eq_sequential wScorer wKeyOf 10 100 [[0], [1]] []
    ((workerResults wScorer wKeyOf 10 100 [[0], [1]] []).reverse)
    (by decide) (by decide) (List.reverse_perm _)

/-- C4 (counterexample): with the default `save_step = 100`, processing the
single-entity chunk `[0]` from an empty store performs one intermediate
persist (because `0 % 100 == 0`), although only one entity was processed —
the claim's "persisted once for every save_step entities processed" predicts
`1 / 100 = 0` persists. The trigger is the entity id's divisibility, not a
count of processed entities. -/
theorem chunk_saves_counterexample :
    (global_mappings_for_ent_chunk wScorer wKeyOf 10 100 true [0] []).saves = 1
    ∧ (global_mappings_for_ent_chunk wScorer wKeyOf 10 100 true [0] []).results.length = 1
    ∧ ¬ ((global_mappings_for_ent_chunk wScorer wKeyOf 10 100 true [0] []).saves
          = (global_mappings_for_ent_chunk wScorer wKeyOf 10 100 true [0] []).results.length
              / 100) := by
  refine ⟨by decide, by decide, by decide⟩

/-- C4 (amended): during sequential chunk processing with intermediate saving
enabled, the store is persisted exactly at each processed (non-skipped) entity
whose entity id is divisible by `save_step` (`src_ent_id % save_step == 0`) —
not once per `save_step` entities processed — and the sequential driver
`global_mappings_for_onto` persists once more, unconditionally, when the chunk
ends, leaving the store itself unchanged. -/
theorem chunk_saves_amended (scorer : Nat → List EntityMapping) (keyOf : Nat → String)
    (nBest save_step : Nat) (ids : List Nat) (st : MapStore) :
    (global_mappings_for_ent_chunk scorer keyOf nBest save_step true ids st).saves
        = (processedIds scorer keyOf nBest ids st).countP
            (fun id => id % save_step == 0)
    ∧ (global_mappings_for_onto scorer keyOf nBest save_step ids st).2
        = (global_mappings_for_ent_chunk scorer keyOf nBest save_step true ids st).saves + 1
    ∧ (global_mappings_for_onto scorer keyOf nBest save_step ids st).1
        = (global_mappings_for_ent_chunk scorer keyOf nBest save_step true ids st).store := by
  refine ⟨?_, rfl, rfl⟩
  induction ids generalizing st with
  | nil => rfl
  | cons id rest ih =>
    by_cases h : keyOf id ∈ storeKeys st
    · simp only [global_mappings_for_ent_chunk, processedIds, if_pos h]
      exact ih st
    · simp only [global_mappings_for_ent_chunk, processedIds, if_neg h]
      rw [List.countP_cons, ih (storeAddMany nBest st (scorer id))]
      simp only [Bool.true_and]
      omega

/-- C6: when the active-direction store already contains a ranked entry for a
source entity's key, the chunk loop skips that entity entirely: the whole
chunk output (final store, result list, saves) equals the output of the loop
started at the next entity, so no scoring is invoked for it, no mappings are
added for it, and it contributes nothing to the chunk's result list. -/
theorem chunk_skip_entity (scorer : Nat → List EntityMapping) (keyOf : Nat → String)
    (nBest save_step : Nat) (isave : Bool) (id : Nat) (rest : List Nat) (st : MapStore)
    (h : keyOf id ∈ storeKeys st) :
    global_mappings_for_ent_chunk scorer keyOf nBest save_step isave (id :: rest) st
      = global_mappings_for_ent_chunk scorer keyOf nBest save_step isave rest st := by
  simp only [global_mappings_for_ent_chunk, if_pos h]

/-- Witness for C6: entity 0's key is already stored, so the chunk output over
`[0, 1]` equals the chunk output over `[1]`. -/
theorem chunk_skip_entity_witness :
    wKeyOf 0 ∈ storeKeys [("a", [("t", (1 : ℚ))])]
    ∧ global_mappings_for_ent_chunk wScorer wKeyOf 10 100 true [0, 1]
        [("a", [("t", (1 : ℚ))])]
      = global_mappings_for_ent_chunk wScorer wKeyOf 10 100 true [1]
        [("a", [("t", (1 : ℚ))])] :=
  ⟨by decide, chunk_skip_entity wScorer wKeyOf 10 100 true 0 [1] _ (by decide)⟩

/-- C10: `uniqify` keeps exactly the first occurrence of every element of the
input in original order, additionally dropping every empty string; hence its
result is duplicate-free, contains no empty string, contains an element iff
the input contains it as a non-empty element, and is a subsequence of the
input. -/
theorem uniqify_spec (ls : List String) :
    uniqify ls = firstOcc (ls.filter (fun x => x ≠ "")) ∧
    (uniqify ls).Nodup ∧
    (∀ x ∈ uniqify ls, x ≠ "") ∧
    (∀ x, x ∈ uniqify ls ↔ (x ∈ ls ∧ x ≠ "")) ∧
    (uniqify ls).Sublist ls := by
  have heq : uniqify ls = firstOcc (ls.filter (fun x => x ≠ "")) := by
    rw [uniqify, dict_fromkeys_eq_firstOcc]
    congr 1
    simp
  refine ⟨heq, ?_, ?_, ?_, ?_⟩
  · rw [heq]; exact firstOcc_nodup _
  · intro x hx
    rw [heq, firstOcc_mem, List.mem_filter] at hx
    simpa using hx.2
  · intro x
    rw [heq, firstOcc_mem, List.mem_filter]
    simp
  · rw [heq]
    exact (firstOcc_sublist _).trans (List.filter_sublist ls)
